import Mathlib

/-!
Verification of the node fault-isolation search (`bisect_nodes`) from
`scripts/atest/nccltest_diag_bisect.py` and
`scripts/atest/nccltest_allreduce_perf_bisect.py`.

The Python code is shallowly embedded as a state machine: one loop iteration
of the `while stack` loop is `step`, the loop itself is `loop` (driven by a
fuel parameter; the source loop has no fuel, and fuel exhaustion is modelled
by `none`).  The state carries the work stack, the memo cache (an association
list keyed by the sorted group, mirroring `tuple(sorted(group))` keys of the
Python dict), the `known_good` list and the accumulated `bad` list, plus two
ghost fields used only to observe behaviour: `calls`, the sequence of groups
actually passed to the test function (cache misses only), and `pops`, the
sequence of (group, verdict) pairs for groups popped off the work stack.
The ghost fields influence nothing.

Node identifiers are an arbitrary linearly ordered type with decidable
equality (the source uses strings, compared and sorted lexicographically).
-/

section Model

variable {α : Type} [LinearOrder α] [DecidableEq α]

/-- The cache key of a group: Python `tuple(sorted(group))`.  Sorting keeps
duplicates; there is no deduplication in the source. -/
def sortedKey (g : List α) : List α := g.insertionSort (· ≤ ·)

/-- Lookup in the memo cache (Python `if key in cache: ... cache[key]`). -/
def cache_find (cache : List (List α × Bool)) (key : List α) : Option Bool :=
  (cache.find? (fun kv => decide (kv.1 = key))).map (fun kv => kv.2)

/-- State of one `bisect_nodes` run: the explicit work stack, the memo cache,
the known-good accumulator, the bad accumulator, and the two ghost traces. -/
structure St (α : Type) where
  stack : List (List α)
  cache : List (List α × Bool)
  known_good : List α
  bad : List α
  calls : List (List α)
  pops : List (List α × Bool)
deriving DecidableEq, Repr

/-- Python `for n in group: if n not in known_good: known_good.append(n)`. -/
def mark_known_good (kg : List α) (g : List α) : List α :=
  g.foldl (fun acc n => if n ∈ acc then acc else acc ++ [n]) kg

/-- Evaluation of one exclusion candidate (source lines: `remaining_key`
lookup, `test_func(remaining)` on a miss, cache store, and the conditional
`identified_bad.append(suspect)`).  Returns the updated cache, ghost call
trace and `identified_bad`. -/
def consider (test : List α → Bool) (cand : List α) (suspect : α)
    (cache : List (List α × Bool)) (calls : List (List α)) (ident : List α) :
    List (List α × Bool) × List (List α) × List α :=
  match cache_find cache (sortedKey cand) with
  | some v => (cache, calls, if v then ident ++ [suspect] else ident)
  | none =>
    ((sortedKey cand, test cand) :: cache, calls ++ [cand],
      if test cand then ident ++ [suspect] else ident)

/-- The exclusion loop `for i, suspect in enumerate(group)` of `bisect_nodes`.
The current position is represented by the processed elements `done` and the
pending elements (`suspect :: rest`); `remaining = done ++ rest` is exactly
the source's `[n for j, n in enumerate(group) if j != i]`.  A candidate of
fewer than two nodes is padded with the first known-good node, or skipped if
there is none.  Returns the updated cache, the updated ghost call trace and
`identified_bad`. -/
def excl_scan (test : List α → Bool) (known_good : List α) :
    List α → List α → List (List α × Bool) → List (List α) → List α →
    List (List α × Bool) × List (List α) × List α
  | _, [], cache, calls, ident => (cache, calls, ident)
  | done, suspect :: rest, cache, calls, ident =>
    let remaining := done ++ rest
    let cand : Option (List α) :=
      if remaining.length < 2 then
        match known_good with
        | [] => none
        | g0 :: _ => some (remaining ++ [g0])
      else some remaining
    match cand with
    | none => excl_scan test known_good (done ++ [suspect]) rest cache calls ident
    | some c =>
      match consider test c suspect cache calls ident with
      | (cache1, calls1, ident1) =>
        excl_scan test known_good (done ++ [suspect]) rest cache1 calls1 ident1

/-- The verdict of a popped group: the cached value if the sorted key is
present, otherwise the oracle's answer (Python
`if key in cache: passed = cache[key] else: passed = test_func(group)`). -/
def run_verdict (test : List α → Bool) (cache : List (List α × Bool))
    (group : List α) : Bool :=
  match cache_find cache (sortedKey group) with
  | some v => v
  | none => test group

/-- The cache after the verdict of `group` is obtained: unchanged on a hit,
extended with `(sortedKey group, test group)` on a miss (the oracle is a pure
function, so the stored value equals `run_verdict`). -/
def upd_cache (test : List α → Bool) (cache : List (List α × Bool))
    (group : List α) : List (List α × Bool) :=
  match cache_find cache (sortedKey group) with
  | some _ => cache
  | none => (sortedKey group, test group) :: cache

/-- Ghost call trace after the verdict of `group` is obtained: the oracle is
invoked only on a cache miss. -/
def upd_calls (cache : List (List α × Bool)) (calls : List (List α))
    (group : List α) : List (List α) :=
  match cache_find cache (sortedKey group) with
  | some _ => calls
  | none => calls ++ [group]

/-- One iteration of the `while stack` loop of `bisect_nodes`: pop a group,
discard it if empty, obtain its verdict through the cache, then either mark
its members known-good (pass), run exclusion isolation (fail, small), or
split it at the floor midpoint and push both halves (fail, large). -/
def step (test : List α → Bool) (min_group : Nat) (st : St α) : St α :=
  match st.stack with
  | [] => st
  | group :: rest =>
    if group.isEmpty then { st with stack := rest }
    else
      let passed := run_verdict test st.cache group
      let cache1 := upd_cache test st.cache group
      let calls1 := upd_calls st.cache st.calls group
      let pops1 := st.pops ++ [(group, passed)]
      if passed then
        { stack := rest, cache := cache1,
          known_good := mark_known_good st.known_good group,
          bad := st.bad, calls := calls1, pops := pops1 }
      else if group.length ≤ min_group then
        let r := excl_scan test st.known_good [] group cache1 calls1 []
        { stack := rest, cache := r.1, known_good := st.known_good,
          bad := st.bad ++ (if r.2.2.isEmpty then group else r.2.2),
          calls := r.2.1, pops := pops1 }
      else
        let mid := group.length / 2
        { stack := group.drop mid :: group.take mid :: rest, cache := cache1,
          known_good := st.known_good, bad := st.bad, calls := calls1, pops := pops1 }

/-- The `identified_bad` list computed by the exclusion phase when `step`
processes `group` at the top of the stack (after the group's own verdict has
updated the cache and the call trace). -/
def step_excl_ident (test : List α → Bool) (st : St α) (group : List α) : List α :=
  (excl_scan test st.known_good [] group (upd_cache test st.cache group)
    (upd_calls st.cache st.calls group) []).2.2

/-- The `while stack` loop, driven by fuel; `none` means the fuel ran out
before the stack emptied (the source loop simply keeps running). -/
def loop (test : List α → Bool) (min_group : Nat) : Nat → St α → Option (St α)
  | 0, st => if st.stack = [] then some st else none
  | fuel + 1, st =>
    if st.stack = [] then some st else loop test min_group fuel (step test min_group st)

/-- Initial state of a run: stack holds the full node list, cache and both
accumulators start empty, `known_good` is seeded from `good_nodes`
(Python `known_good = list(good_nodes) if good_nodes else []`). -/
def init_state (nodes : List α) (good_nodes : List α) : St α :=
  ⟨[nodes], [], good_nodes, [], [], []⟩

/-- The embedded `bisect_nodes`.  The final `bad` field corresponds to the
source's `bad` list; the returned `list(set(bad))` has exactly the same
members, so claims about the returned set are stated via membership in
`bad`. -/
def bisect_nodes (nodes : List α) (test : List α → Bool) (min_group : Nat)
    (good_nodes : List α) (fuel : Nat) : Option (St α) :=
  loop test min_group fuel (init_state nodes good_nodes)

/-- The deterministic oracle used by the correctness claims: the test passes
exactly when the group avoids every designated bad node in `B` (so it fails
iff the group contains a member of `B`). -/
def oracleDisj (B : List α) (g : List α) : Bool := decide (∀ x ∈ g, x ∉ B)

/-- The canonical form the specification describes: sorted and deduplicated.
Modelled from the spec for comparison with the key actually used
(`sortedKey`). -/
def specCanonical (g : List α) : List α := (sortedKey g).dedup

/-- Faithfulness of the memo cache: every stored verdict is the oracle's
answer on the stored key.  For a permutation-invariant oracle a cached
lookup therefore agrees with a fresh oracle call on any group with that
sorted key. -/
def cacheFaithful (test : List α → Bool) (cache : List (List α × Bool)) : Prop :=
  ∀ kv ∈ cache, kv.2 = test kv.1

/-- Termination measure of a loop state: each stacked group of length L
contributes 3 ^ L.  Every loop iteration with `1 ≤ min_group` strictly
decreases it. -/
def measureSt (st : St α) : Nat := (st.stack.map (fun g => 3 ^ g.length)).sum

/-- Invariant tying the ghost call trace to the cache: the sorted keys of the
performed oracle calls are pairwise distinct, and each of them is present in
the cache. -/
def callsInv (cache : List (List α × Bool)) (calls : List (List α)) : Prop :=
  (calls.map sortedKey).Nodup ∧ ∀ c ∈ calls, ∃ v, (sortedKey c, v) ∈ cache

end Model

section MainModel

variable {α : Type} [LinearOrder α] [DecidableEq α]

/-- Outcome of the command-line driver `main`: the two `sys.exit(1)` paths
(missing hostfile inside `read_nodes`, empty node list) or a completed
bisection run. -/
inductive MainOutcome (α : Type) where
  | hostfileMissing : MainOutcome α
  | emptyNodes : MainOutcome α
  | ran : Option (St α) → MainOutcome α
deriving DecidableEq

/-- The driver `main` of `nccltest_diag_bisect.py`, abstracted over the
already-parsed hostfile contents (`none` models `FileNotFoundError` in
`read_nodes`, which exits before `main` sees a node list) and over the oracle;
`main` passes no `good_nodes`, so the known-good seed is empty. -/
def main_model (hostfile : Option (List α)) (test : List α → Bool)
    (min_group : Nat) (fuel : Nat) : MainOutcome α :=
  match hostfile with
  | none => MainOutcome.hostfileMissing
  | some nodes =>
    if nodes = [] then MainOutcome.emptyNodes
    else MainOutcome.ran (bisect_nodes nodes test min_group [] fuel)

/-- A hard failure surfaced to the caller: one of the `sys.exit(1)` outcomes. -/
def isHardFailure : MainOutcome α → Prop :=
  fun o => o = MainOutcome.hostfileMissing ∨ o = MainOutcome.emptyNodes

/-- Oracle calls performed by a `main` run. -/
def mainCalls : MainOutcome α → List (List α)
  | MainOutcome.ran (some st) => st.calls
  | _ => []

end MainModel

namespace Perf

/-!
The second implementation of the search, `bisect_nodes` in
`nccltest_allreduce_perf_bisect.py` (lines 96-165).  Its body is a separate
copy in the repository; it is embedded here as its own set of definitions,
translated independently from that file.
-/

variable {α : Type} [LinearOrder α] [DecidableEq α]

/-- Cache key in the allreduce variant: `tuple(sorted(group))`. -/
def sortedKey (g : List α) : List α := g.insertionSort (· ≤ ·)

/-- Cache lookup in the allreduce variant. -/
def cache_find (cache : List (List α × Bool)) (key : List α) : Option Bool :=
  (cache.find? (fun kv => decide (kv.1 = key))).map (fun kv => kv.2)

/-- Known-good accumulation in the allreduce variant. -/
def mark_known_good (kg : List α) (g : List α) : List α :=
  g.foldl (fun acc n => if n ∈ acc then acc else acc ++ [n]) kg

/-- Exclusion loop of the allreduce variant. -/
def excl_scan (test : List α → Bool) (known_good : List α) :
    List α → List α → List (List α × Bool) → List (List α) → List α →
    List (List α × Bool) × List (List α) × List α
  | _, [], cache, calls, ident => (cache, calls, ident)
  | done, suspect :: rest, cache, calls, ident =>
    let remaining := done ++ rest
    let cand : Option (List α) :=
      if remaining.length < 2 then
        match known_good with
        | [] => none
        | g0 :: _ => some (remaining ++ [g0])
      else some remaining
    match cand with
    | none => excl_scan test known_good (done ++ [suspect]) rest cache calls ident
    | some c =>
      match cache_find cache (sortedKey c) with
      | some v =>
        excl_scan test known_good (done ++ [suspect]) rest cache calls
          (if v then ident ++ [suspect] else ident)
      | none =>
        let v := test c
        excl_scan test known_good (done ++ [suspect]) rest ((sortedKey c, v) :: cache)
          (calls ++ [c]) (if v then ident ++ [suspect] else ident)

/-- Verdict of a popped group in the allreduce variant. -/
def run_verdict (test : List α → Bool) (cache : List (List α × Bool))
    (group : List α) : Bool :=
  match cache_find cache (sortedKey group) with
  | some v => v
  | none => test group

/-- Cache update in the allreduce variant. -/
def upd_cache (test : List α → Bool) (cache : List (List α × Bool))
    (group : List α) : List (List α × Bool) :=
  match cache_find cache (sortedKey group) with
  | some _ => cache
  | none => (sortedKey group, test group) :: cache

/-- Call-trace update in the allreduce variant. -/
def upd_calls (cache : List (List α × Bool)) (calls : List (List α))
    (group : List α) : List (List α) :=
  match cache_find cache (sortedKey group) with
  | some _ => calls
  | none => calls ++ [group]

/-- One loop iteration of the allreduce variant. -/
def step (test : List α → Bool) (min_group : Nat) (st : St α) : St α :=
  match st.stack with
  | [] => st
  | group :: rest =>
    if group.isEmpty then { st with stack := rest }
    else
      let passed := run_verdict test st.cache group
      let cache1 := upd_cache test st.cache group
      let calls1 := upd_calls st.cache st.calls group
      let pops1 := st.pops ++ [(group, passed)]
      if passed then
        { stack := rest, cache := cache1,
          known_good := mark_known_good st.known_good group,
          bad := st.bad, calls := calls1, pops := pops1 }
      else if group.length ≤ min_group then
        let r := excl_scan test st.known_good [] group cache1 calls1 []
        { stack := rest, cache := r.1, known_good := st.known_good,
          bad := st.bad ++ (if r.2.2.isEmpty then group else r.2.2),
          calls := r.2.1, pops := pops1 }
      else
        let mid := group.length / 2
        { stack := group.drop mid :: group.take mid :: rest, cache := cache1,
          known_good := st.known_good, bad := st.bad, calls := calls1, pops := pops1 }

/-- The while loop of the allreduce variant. -/
def loop (test : List α → Bool) (min_group : Nat) : Nat → St α → Option (St α)
  | 0, st => if st.stack = [] then some st else none
  | fuel + 1, st =>
    if st.stack = [] then some st else loop test min_group fuel (step test min_group st)

/-- The embedded `bisect_nodes` of `nccltest_allreduce_perf_bisect.py`. -/
def bisect_nodes (nodes : List α) (test : List α → Bool) (min_group : Nat)
    (good_nodes : List α) (fuel : Nat) : Option (St α) :=
  loop test min_group fuel ⟨[nodes], [], good_nodes, [], [], []⟩

end Perf

section Equivalence

variable {α : Type} [LinearOrder α] [DecidableEq α]

lemma perf_sortedKey_eq : @Perf.sortedKey = @sortedKey := rfl

lemma perf_cache_find_eq : @Perf.cache_find = @cache_find := rfl

lemma perf_mark_known_good_eq : @Perf.mark_known_good = @mark_known_good := rfl

lemma perf_excl_scan_eq (test : List α → Bool) (kg : List α) :
    ∀ (todo done : List α) (cache : List (List α × Bool)) (calls : List (List α))
      (ident : List α),
      Perf.excl_scan test kg done todo cache calls ident =
        excl_scan test kg done todo cache calls ident := by
  intro todo
  induction todo with
  | nil => intro done cache calls ident; rfl
  | cons s rest ih =>
    intro done cache calls ident
    simp only [Perf.excl_scan, excl_scan, perf_cache_find_eq, perf_sortedKey_eq]
    split
    · exact ih _ _ _ _
    · split
      · rename_i v hv
        simp only [consider, hv]
        exact ih _ _ _ _
      · rename_i hv
        simp only [consider, hv]
        exact ih _ _ _ _

lemma perf_run_verdict_eq : @Perf.run_verdict = @run_verdict := rfl

lemma perf_upd_cache_eq : @Perf.upd_cache = @upd_cache := rfl

lemma perf_upd_calls_eq : @Perf.upd_calls = @upd_calls := rfl

lemma perf_step_eq (test : List α → Bool) (m : Nat) (st : St α) :
    Perf.step test m st = step test m st := by
  cases hstk : st.stack with
  | nil => simp [Perf.step, step, hstk]
  | cons group rest =>
    simp only [Perf.step, step, hstk, perf_run_verdict_eq, perf_upd_cache_eq,
      perf_upd_calls_eq, perf_excl_scan_eq, perf_mark_known_good_eq]

lemma perf_loop_eq (test : List α → Bool) (m : Nat) :
    ∀ (fuel : Nat) (st : St α), Perf.loop test m fuel st = loop test m fuel st := by
  intro fuel
  induction fuel with
  | zero => intro st; rfl
  | succ n ih =>
    intro st
    simp only [Perf.loop, loop, perf_step_eq]
    split
    · rfl
    · exact ih _

end Equivalence

section BasicLemmas

variable {α : Type} [LinearOrder α] [DecidableEq α]

lemma loop_stack_nil (test : List α → Bool) (m fuel : Nat) (st : St α)
    (h : st.stack = []) : loop test m fuel st = some st := by
  cases fuel <;> simp [loop, h]

lemma sortedKey_perm (g : List α) : (sortedKey g).Perm g :=
  List.perm_insertionSort _ g

lemma mem_sortedKey {x : α} {g : List α} : x ∈ sortedKey g ↔ x ∈ g :=
  (sortedKey_perm g).mem_iff

lemma excl_scan_single_empty_kg (test : List α → Bool) (x : α)
    (cache : List (List α × Bool)) (calls : List (List α)) (ident : List α) :
    excl_scan test [] [] [x] cache calls ident = (cache, calls, ident) := by
  simp [excl_scan]

lemma pow3_add_lt {a b : Nat} (ha : 1 ≤ a) (hb : 1 ≤ b) :
    3 ^ a + 3 ^ b < 3 ^ (a + b) := by
  have hx : 3 ≤ 3 ^ a := by
    calc 3 = 3 ^ 1 := (pow_one 3).symm
    _ ≤ 3 ^ a := Nat.pow_le_pow_right (by norm_num) ha
  have hy : 3 ≤ 3 ^ b := by
    calc 3 = 3 ^ 1 := (pow_one 3).symm
    _ ≤ 3 ^ b := Nat.pow_le_pow_right (by norm_num) hb
  have h1 : 3 * 3 ^ b ≤ 3 ^ a * 3 ^ b := Nat.mul_le_mul_right _ hx
  have h2 : 3 ^ a * 3 ≤ 3 ^ a * 3 ^ b := Nat.mul_le_mul_left _ hy
  rw [pow_add]
  omega

lemma measureSt_step_lt (test : List α → Bool) {m : Nat} (hm : 1 ≤ m)
    (st : St α) (h : st.stack ≠ []) : measureSt (step test m st) < measureSt st := by
  have hpos : ∀ n : Nat, 0 < 3 ^ n := fun n => pow_pos (by norm_num) n
  cases hstk : st.stack with
  | nil => exact absurd hstk h
  | cons group rest =>
    by_cases hemp : group.isEmpty
    · have hg : group = [] := List.isEmpty_iff.mp hemp
      subst hg
      simp [step, hstk, measureSt]
    · rw [List.isEmpty_iff] at hemp
      cases hp : run_verdict test st.cache group with
      | true =>
        have := hpos group.length
        simp [step, hstk, hp, measureSt, List.isEmpty_iff, hemp]
      | false =>
        by_cases hsm : group.length ≤ m
        · have := hpos group.length
          simp [step, hstk, hp, hsm, measureSt, List.isEmpty_iff, hemp]
        · have hlp : 0 < group.length := List.length_pos.mpr hemp
          have hlen : 2 ≤ group.length := by omega
          have hkey := pow3_add_lt (a := group.length / 2)
            (b := group.length - group.length / 2) (by omega) (by omega)
          have hsum : group.length / 2 + (group.length - group.length / 2) =
              group.length := by omega
          rw [hsum] at hkey
          have hmin : min (group.length / 2) group.length = group.length / 2 :=
            min_eq_left (Nat.div_le_self _ _)
          simp [step, hstk, hp, hsm, measureSt, List.isEmpty_iff, hemp,
            List.length_take, List.length_drop, hmin]
          omega

lemma loop_isSome (test : List α → Bool) {m : Nat} (hm : 1 ≤ m) :
    ∀ (fuel : Nat) (st : St α), measureSt st ≤ fuel →
      (loop test m fuel st).isSome := by
  intro fuel
  induction fuel with
  | zero =>
    intro st hle
    cases hstk : st.stack with
    | nil => simp [loop, hstk]
    | cons g r =>
      exfalso
      simp [measureSt, hstk] at hle
  | succ n ih =>
    intro st hle
    by_cases hstk : st.stack = []
    · simp [loop, hstk]
    · have hlt := measureSt_step_lt test hm st hstk
      simp only [loop, if_neg hstk]
      exact ih _ (by omega)

lemma loop_invariant (test : List α → Bool) (m : Nat) {P : St α → Prop}
    (hstep : ∀ st, st.stack ≠ [] → P st → P (step test m st)) :
    ∀ (fuel : Nat) (st st' : St α), P st → loop test m fuel st = some st' → P st' := by
  intro fuel
  induction fuel with
  | zero =>
    intro st st' hP hloop
    by_cases hstk : st.stack = []
    · simp [loop, hstk] at hloop
      exact hloop ▸ hP
    · simp [loop, hstk] at hloop
  | succ n ih =>
    intro st st' hP hloop
    by_cases hstk : st.stack = []
    · simp [loop, hstk] at hloop
      exact hloop ▸ hP
    · simp only [loop, if_neg hstk] at hloop
      exact ih _ _ (hstep st hstk hP) hloop

lemma loop_some_stack_eq_nil (test : List α → Bool) (m : Nat) :
    ∀ (fuel : Nat) (st st' : St α), loop test m fuel st = some st' →
      st'.stack = [] := by
  intro fuel
  induction fuel with
  | zero =>
    intro st st' hloop
    by_cases hstk : st.stack = []
    · simp [loop, hstk] at hloop
      exact hloop ▸ hstk
    · simp [loop, hstk] at hloop
  | succ n ih =>
    intro st st' hloop
    by_cases hstk : st.stack = []
    · simp [loop, hstk] at hloop
      exact hloop ▸ hstk
    · simp only [loop, if_neg hstk] at hloop
      exact ih _ _ hloop

end BasicLemmas

section CacheLemmas

variable {α : Type} [LinearOrder α] [DecidableEq α]

lemma cache_find_none {cache : List (List α × Bool)} {key : List α}
    (h : cache_find cache key = none) : ∀ kv ∈ cache, kv.1 ≠ key := by
  intro kv hkv heq
  unfold cache_find at h
  rw [Option.map_eq_none'] at h
  have := List.find?_eq_none.mp h kv hkv
  simp at this
  exact this heq

lemma cache_find_some {cache : List (List α × Bool)} {key : List α} {v : Bool}
    (h : cache_find cache key = some v) : (key, v) ∈ cache := by
  unfold cache_find at h
  rw [Option.map_eq_some'] at h
  obtain ⟨kv, hfind, hv⟩ := h
  have hmem := List.mem_of_find?_eq_some hfind
  have hp : kv.1 = key := by simpa using List.find?_some hfind
  obtain ⟨a, b⟩ := kv
  simp only at hp hv
  subst hp
  subst hv
  exact hmem

lemma oracleDisj_perm (B : List α) (g₁ g₂ : List α) (h : g₁.Perm g₂) :
    oracleDisj B g₁ = oracleDisj B g₂ := by
  simp only [oracleDisj]
  apply decide_eq_decide.mpr
  constructor
  · intro hh x hx
    exact hh x (h.symm.subset hx)
  · intro hh x hx
    exact hh x (h.subset hx)

lemma oracleDisj_eq_true {B g : List α} : oracleDisj B g = true ↔ ∀ x ∈ g, x ∉ B := by
  simp [oracleDisj]

lemma oracleDisj_eq_false {B g : List α} : oracleDisj B g = false ↔ ∃ x ∈ g, x ∈ B := by
  simp [oracleDisj, not_not]

lemma run_verdict_faithful {test : List α → Bool}
    (hperm : ∀ g₁ g₂ : List α, g₁.Perm g₂ → test g₁ = test g₂)
    {cache : List (List α × Bool)} (hf : cacheFaithful test cache)
    (group : List α) : run_verdict test cache group = test group := by
  unfold run_verdict
  cases hfind : cache_find cache (sortedKey group) with
  | none => rfl
  | some v =>
    have h1 := hf _ (cache_find_some hfind)
    simp only at h1
    rw [h1]
    exact hperm _ _ (sortedKey_perm group)

lemma upd_cache_faithful {test : List α → Bool}
    (hperm : ∀ g₁ g₂ : List α, g₁.Perm g₂ → test g₁ = test g₂)
    {cache : List (List α × Bool)} (hf : cacheFaithful test cache)
    (group : List α) : cacheFaithful test (upd_cache test cache group) := by
  unfold upd_cache
  cases hfind : cache_find cache (sortedKey group) with
  | some v => exact hf
  | none =>
    intro kv hkv
    rcases List.mem_cons.mp hkv with rfl | hkv'
    · simpa using (hperm _ _ (sortedKey_perm group)).symm
    · exact hf _ hkv'

lemma upd_cache_mono {test : List α → Bool} {cache : List (List α × Bool)}
    {group : List α} : ∀ kv ∈ cache, kv ∈ upd_cache test cache group := by
  intro kv hkv
  unfold upd_cache
  cases hfind : cache_find cache (sortedKey group) <;> simp [hkv]

lemma upd_callsInv {test : List α → Bool} {cache : List (List α × Bool)}
    {calls : List (List α)} {group : List α} (h : callsInv cache calls) :
    callsInv (upd_cache test cache group) (upd_calls cache calls group) := by
  obtain ⟨hnd, hin⟩ := h
  unfold upd_cache upd_calls
  cases hfind : cache_find cache (sortedKey group) with
  | some v => exact ⟨hnd, hin⟩
  | none =>
    constructor
    · have hkey : sortedKey group ∉ calls.map sortedKey := by
        intro hmem
        obtain ⟨c, hc, hceq⟩ := List.mem_map.mp hmem
        obtain ⟨v, hv⟩ := hin c hc
        exact cache_find_none hfind _ hv hceq
      simp [List.nodup_append, hkey, hnd]
    · intro c hc
      rcases List.mem_append.mp hc with h1 | h1
      · obtain ⟨v, hv⟩ := hin c h1
        exact ⟨v, List.mem_cons_of_mem _ hv⟩
      · have hceq : c = group := by simpa using h1
        subst hceq
        exact ⟨test c, List.mem_cons_self _ _⟩

end CacheLemmas

section ConsiderLemmas

variable {α : Type} [LinearOrder α] [DecidableEq α]

lemma consider_cache_mono {test : List α → Bool} {cand : List α} {s : α}
    {cache : List (List α × Bool)} {calls : List (List α)} {ident : List α} :
    ∀ kv ∈ cache, kv ∈ (consider test cand s cache calls ident).1 := by
  intro kv hkv
  unfold consider
  cases hfind : cache_find cache (sortedKey cand) <;> simp [hkv]

lemma consider_cache_faithful {test : List α → Bool}
    (hperm : ∀ g₁ g₂ : List α, g₁.Perm g₂ → test g₁ = test g₂)
    {cand : List α} {s : α} {cache : List (List α × Bool)} {calls : List (List α)}
    {ident : List α} (hf : cacheFaithful test cache) :
    cacheFaithful test (consider test cand s cache calls ident).1 := by
  unfold consider
  cases hfind : cache_find cache (sortedKey cand) with
  | some v => exact hf
  | none =>
    intro kv hkv
    rcases List.mem_cons.mp hkv with rfl | hkv'
    · simpa using (hperm _ _ (sortedKey_perm cand)).symm
    · exact hf _ hkv'

lemma consider_ident_eq {test : List α → Bool}
    (hperm : ∀ g₁ g₂ : List α, g₁.Perm g₂ → test g₁ = test g₂)
    {cand : List α} {s : α} {cache : List (List α × Bool)} {calls : List (List α)}
    {ident : List α} (hf : cacheFaithful test cache) :
    (consider test cand s cache calls ident).2.2 =
      if test cand then ident ++ [s] else ident := by
  unfold consider
  cases hfind : cache_find cache (sortedKey cand) with
  | none => rfl
  | some v =>
    have h1 := hf _ (cache_find_some hfind)
    simp only at h1
    have hv : v = test cand := by
      rw [h1]
      exact hperm _ _ (sortedKey_perm cand)
    rw [hv]

lemma consider_ident_sub {test : List α → Bool} {cand : List α} {s : α}
    {cache : List (List α × Bool)} {calls : List (List α)} {ident : List α} :
    ∀ x ∈ (consider test cand s cache calls ident).2.2, x ∈ ident ∨ x = s := by
  unfold consider
  cases hfind : cache_find cache (sortedKey cand) with
  | some v => cases v <;> intro x hx <;> simp at hx <;> tauto
  | none => cases ht : test cand <;> intro x hx <;> simp at hx <;> tauto

lemma consider_ident_mono {test : List α → Bool} {cand : List α} {s : α}
    {cache : List (List α × Bool)} {calls : List (List α)} {ident : List α} :
    ∀ x ∈ ident, x ∈ (consider test cand s cache calls ident).2.2 := by
  intro x hx
  unfold consider
  cases hfind : cache_find cache (sortedKey cand) with
  | some v => cases v <;> simp [hx]
  | none => cases ht : test cand <;> simp [hx]

lemma consider_callsInv {test : List α → Bool} {cand : List α} {s : α}
    {cache : List (List α × Bool)} {calls : List (List α)} {ident : List α}
    (h : callsInv cache calls) :
    callsInv (consider test cand s cache calls ident).1
      (consider test cand s cache calls ident).2.1 := by
  obtain ⟨hnd, hin⟩ := h
  unfold consider
  cases hfind : cache_find cache (sortedKey cand) with
  | some v => exact ⟨hnd, hin⟩
  | none =>
    constructor
    · have hkey : sortedKey cand ∉ calls.map sortedKey := by
        intro hmem
        obtain ⟨c, hc, hceq⟩ := List.mem_map.mp hmem
        obtain ⟨v, hv⟩ := hin c hc
        exact cache_find_none hfind _ hv hceq
      simp [List.nodup_append, hkey, hnd]
    · intro c hc
      rcases List.mem_append.mp hc with h1 | h1
      · obtain ⟨v, hv⟩ := hin c h1
        exact ⟨v, List.mem_cons_of_mem _ hv⟩
      · have hceq : c = cand := by simpa using h1
        subst hceq
        exact ⟨test c, List.mem_cons_self _ _⟩

end ConsiderLemmas

section ExclScanLemmas

variable {α : Type} [LinearOrder α] [DecidableEq α]

lemma excl_scan_nil {test : List α → Bool} {kg done : List α}
    {cache : List (List α × Bool)} {calls : List (List α)} {ident : List α} :
    excl_scan test kg done [] cache calls ident = (cache, calls, ident) := rfl

lemma excl_scan_cons_skip {test : List α → Bool} {done : List α} {s : α}
    {rest : List α} {cache : List (List α × Bool)} {calls : List (List α)}
    {ident : List α} (hlen : (done ++ rest).length < 2) :
    excl_scan test [] done (s :: rest) cache calls ident =
      excl_scan test [] (done ++ [s]) rest cache calls ident := by
  have hlen' : done.length + rest.length < 2 := by
    simpa [List.length_append] using hlen
  simp [excl_scan, hlen']

lemma excl_scan_cons_pad {test : List α → Bool} {g0 : α} {kgr : List α}
    {done : List α} {s : α} {rest : List α} {cache : List (List α × Bool)}
    {calls : List (List α)} {ident : List α}
    (hlen : (done ++ rest).length < 2) :
    excl_scan test (g0 :: kgr) done (s :: rest) cache calls ident =
      excl_scan test (g0 :: kgr) (done ++ [s]) rest
        (consider test (done ++ rest ++ [g0]) s cache calls ident).1
        (consider test (done ++ rest ++ [g0]) s cache calls ident).2.1
        (consider test (done ++ rest ++ [g0]) s cache calls ident).2.2 := by
  have hlen' : done.length + rest.length < 2 := by
    simpa [List.length_append] using hlen
  rcases hcons : consider test (done ++ rest ++ [g0]) s cache calls ident with ⟨c1, cl1, id1⟩
  rw [List.append_assoc] at hcons
  simp [excl_scan, hlen', hcons]

lemma excl_scan_cons_big {test : List α → Bool} {kg done : List α} {s : α}
    {rest : List α} {cache : List (List α × Bool)} {calls : List (List α)}
    {ident : List α} (hlen : ¬(done ++ rest).length < 2) :
    excl_scan test kg done (s :: rest) cache calls ident =
      excl_scan test kg (done ++ [s]) rest
        (consider test (done ++ rest) s cache calls ident).1
        (consider test (done ++ rest) s cache calls ident).2.1
        (consider test (done ++ rest) s cache calls ident).2.2 := by
  have hlen' : ¬done.length + rest.length < 2 := by
    simpa [List.length_append] using hlen
  rcases hcons : consider test (done ++ rest) s cache calls ident with ⟨c1, cl1, id1⟩
  simp [excl_scan, hlen', hcons]

lemma excl_scan_cache_mono (test : List α → Bool) (kg : List α) :
    ∀ (todo done : List α) (cache : List (List α × Bool)) (calls : List (List α))
      (ident : List α), ∀ kv ∈ cache,
      kv ∈ (excl_scan test kg done todo cache calls ident).1 := by
  intro todo
  induction todo with
  | nil =>
    intro done cache calls ident kv hkv
    simpa [excl_scan_nil] using hkv
  | cons s rest ih =>
    intro done cache calls ident kv hkv
    by_cases hlen : (done ++ rest).length < 2
    · cases kg with
      | nil =>
        rw [excl_scan_cons_skip hlen]
        exact ih _ _ _ _ _ hkv
      | cons g0 kgr =>
        rw [excl_scan_cons_pad hlen]
        exact ih _ _ _ _ _ (consider_cache_mono _ hkv)
    · rw [excl_scan_cons_big hlen]
      exact ih _ _ _ _ _ (consider_cache_mono _ hkv)

lemma excl_scan_cache_faithful {test : List α → Bool}
    (hperm : ∀ g₁ g₂ : List α, g₁.Perm g₂ → test g₁ = test g₂) (kg : List α) :
    ∀ (todo done : List α) (cache : List (List α × Bool)) (calls : List (List α))
      (ident : List α), cacheFaithful test cache →
      cacheFaithful test (excl_scan test kg done todo cache calls ident).1 := by
  intro todo
  induction todo with
  | nil =>
    intro done cache calls ident hf
    simpa [excl_scan_nil] using hf
  | cons s rest ih =>
    intro done cache calls ident hf
    by_cases hlen : (done ++ rest).length < 2
    · cases kg with
      | nil =>
        rw [excl_scan_cons_skip hlen]
        exact ih _ _ _ _ hf
      | cons g0 kgr =>
        rw [excl_scan_cons_pad hlen]
        exact ih _ _ _ _ (consider_cache_faithful hperm hf)
    · rw [excl_scan_cons_big hlen]
      exact ih _ _ _ _ (consider_cache_faithful hperm hf)

lemma excl_scan_ident_sub (test : List α → Bool) (kg : List α) :
    ∀ (todo done : List α) (cache : List (List α × Bool)) (calls : List (List α))
      (ident : List α), ∀ x ∈ (excl_scan test kg done todo cache calls ident).2.2,
      x ∈ ident ∨ x ∈ todo := by
  intro todo
  induction todo with
  | nil =>
    intro done cache calls ident x hx
    exact Or.inl (by simpa [excl_scan_nil] using hx)
  | cons s rest ih =>
    intro done cache calls ident x hx
    by_cases hlen : (done ++ rest).length < 2
    · cases kg with
      | nil =>
        rw [excl_scan_cons_skip hlen] at hx
        rcases ih _ _ _ _ _ hx with h | h
        · exact Or.inl h
        · exact Or.inr (List.mem_cons_of_mem _ h)
      | cons g0 kgr =>
        rw [excl_scan_cons_pad hlen] at hx
        rcases ih _ _ _ _ _ hx with h | h
        · rcases consider_ident_sub _ h with h' | h'
          · exact Or.inl h'
          · exact Or.inr (h' ▸ List.mem_cons_self _ _)
        · exact Or.inr (List.mem_cons_of_mem _ h)
    · rw [excl_scan_cons_big hlen] at hx
      rcases ih _ _ _ _ _ hx with h | h
      · rcases consider_ident_sub _ h with h' | h'
        · exact Or.inl h'
        · exact Or.inr (h' ▸ List.mem_cons_self _ _)
      · exact Or.inr (List.mem_cons_of_mem _ h)

lemma excl_scan_ident_mono (test : List α → Bool) (kg : List α) :
    ∀ (todo done : List α) (cache : List (List α × Bool)) (calls : List (List α))
      (ident : List α), ∀ x ∈ ident,
      x ∈ (excl_scan test kg done todo cache calls ident).2.2 := by
  intro todo
  induction todo with
  | nil =>
    intro done cache calls ident x hx
    simpa [excl_scan_nil] using hx
  | cons s rest ih =>
    intro done cache calls ident x hx
    by_cases hlen : (done ++ rest).length < 2
    · cases kg with
      | nil =>
        rw [excl_scan_cons_skip hlen]
        exact ih _ _ _ _ _ hx
      | cons g0 kgr =>
        rw [excl_scan_cons_pad hlen]
        exact ih _ _ _ _ _ (consider_ident_mono _ hx)
    · rw [excl_scan_cons_big hlen]
      exact ih _ _ _ _ _ (consider_ident_mono _ hx)

lemma excl_scan_callsInv (test : List α → Bool) (kg : List α) :
    ∀ (todo done : List α) (cache : List (List α × Bool)) (calls : List (List α))
      (ident : List α), callsInv cache calls →
      callsInv (excl_scan test kg done todo cache calls ident).1
        (excl_scan test kg done todo cache calls ident).2.1 := by
  intro todo
  induction todo with
  | nil =>
    intro done cache calls ident h
    simpa [excl_scan_nil] using h
  | cons s rest ih =>
    intro done cache calls ident h
    by_cases hlen : (done ++ rest).length < 2
    · cases kg with
      | nil =>
        rw [excl_scan_cons_skip hlen]
        exact ih _ _ _ _ h
      | cons g0 kgr =>
        rw [excl_scan_cons_pad hlen]
        exact ih _ _ _ _ (consider_callsInv h)
    · rw [excl_scan_cons_big hlen]
      exact ih _ _ _ _ (consider_callsInv h)

lemma excl_scan_ident_oracle (B kg : List α) :
    ∀ (todo done : List α) (cache : List (List α × Bool)) (calls : List (List α))
      (ident : List α), cacheFaithful (oracleDisj B) cache →
      ∀ s' ∈ (excl_scan (oracleDisj B) kg done todo cache calls ident).2.2,
        s' ∈ ident ∨ (s' ∈ todo ∧ ∀ x ∈ B, x ∈ done ++ todo → x = s') := by
  intro todo
  induction todo with
  | nil =>
    intro done cache calls ident _ s' hs'
    exact Or.inl (by simpa [excl_scan_nil] using hs')
  | cons s rest ih =>
    intro done cache calls ident hf s' hs'
    by_cases hlen : (done ++ rest).length < 2
    · cases kg with
      | nil =>
        rw [excl_scan_cons_skip hlen] at hs'
        rcases ih _ _ _ _ hf _ hs' with h | ⟨h1, h2⟩
        · exact Or.inl h
        · refine Or.inr ⟨List.mem_cons_of_mem _ h1, ?_⟩
          intro x hxB hxmem
          exact h2 x hxB (by simpa [List.append_assoc] using hxmem)
      | cons g0 kgr =>
        rw [excl_scan_cons_pad hlen] at hs'
        rcases ih _ _ _ _ (consider_cache_faithful (oracleDisj_perm B) hf) _ hs' with
          h | ⟨h1, h2⟩
        · rw [consider_ident_eq (oracleDisj_perm B) hf] at h
          by_cases ht : oracleDisj B (done ++ rest ++ [g0]) = true
          · rw [if_pos ht] at h
            rcases List.mem_append.mp h with h' | h'
            · exact Or.inl h'
            · have hss : s' = s := by simpa using h'
              subst hss
              refine Or.inr ⟨List.mem_cons_self _ _, ?_⟩
              intro x hxB hxmem
              have hdisj := oracleDisj_eq_true.mp ht
              rcases List.mem_append.mp hxmem with hd | hsr
              · exact absurd hxB (hdisj x (by simp [hd]))
              · rcases List.mem_cons.mp hsr with rfl | hr
                · rfl
                · exact absurd hxB (hdisj x (by simp [hr]))
          · rw [if_neg ht] at h
            exact Or.inl h
        · refine Or.inr ⟨List.mem_cons_of_mem _ h1, ?_⟩
          intro x hxB hxmem
          exact h2 x hxB (by simpa [List.append_assoc] using hxmem)
    · rw [excl_scan_cons_big hlen] at hs'
      rcases ih _ _ _ _ (consider_cache_faithful (oracleDisj_perm B) hf) _ hs' with
        h | ⟨h1, h2⟩
      · rw [consider_ident_eq (oracleDisj_perm B) hf] at h
        by_cases ht : oracleDisj B (done ++ rest) = true
        · rw [if_pos ht] at h
          rcases List.mem_append.mp h with h' | h'
          · exact Or.inl h'
          · have hss : s' = s := by simpa using h'
            subst hss
            refine Or.inr ⟨List.mem_cons_self _ _, ?_⟩
            intro x hxB hxmem
            have hdisj := oracleDisj_eq_true.mp ht
            rcases List.mem_append.mp hxmem with hd | hsr
            · exact absurd hxB (hdisj x (by simp [hd]))
            · rcases List.mem_cons.mp hsr with rfl | hr
              · rfl
              · exact absurd hxB (hdisj x (by simp [hr]))
        · rw [if_neg ht] at h
          exact Or.inl h
      · refine Or.inr ⟨List.mem_cons_of_mem _ h1, ?_⟩
        intro x hxB hxmem
        exact h2 x hxB (by simpa [List.append_assoc] using hxmem)

lemma excl_scan_ident_complete {test : List α → Bool}
    (hperm : ∀ g₁ g₂ : List α, g₁.Perm g₂ → test g₁ = test g₂) (kg : List α)
    (s : α) (r : List α) :
    ∀ (d done : List α) (cache : List (List α × Bool)) (calls : List (List α))
      (ident : List α), cacheFaithful test cache →
      2 ≤ (done ++ (d ++ r)).length →
      test (done ++ (d ++ r)) = true →
      s ∈ (excl_scan test kg done (d ++ s :: r) cache calls ident).2.2 := by
  intro d
  induction d with
  | nil =>
    intro done cache calls ident hf hlen2 ht
    simp only [List.nil_append] at hlen2 ht
    have hlen : ¬(done ++ r).length < 2 := by omega
    rw [List.nil_append, excl_scan_cons_big hlen]
    apply excl_scan_ident_mono
    rw [consider_ident_eq hperm hf, if_pos ht]
    simp
  | cons d0 d' ih =>
    intro done cache calls ident hf hlen2 ht
    have hlen : ¬(done ++ (d' ++ s :: r)).length < 2 := by
      simp only [List.length_append, List.length_cons] at hlen2 ⊢
      omega
    rw [List.cons_append, excl_scan_cons_big hlen]
    apply ih
    · exact consider_cache_faithful hperm hf
    · simp only [List.length_append, List.length_cons] at hlen2 ⊢
      omega
    · have heq : (done ++ [d0]) ++ (d' ++ r) = done ++ ((d0 :: d') ++ r) := by simp
      rw [heq]
      exact ht

end ExclScanLemmas

section StepLemmas

variable {α : Type} [LinearOrder α] [DecidableEq α]

lemma step_eq_empty {test : List α → Bool} {m : Nat} {st : St α}
    {rest : List (List α)} (hstk : st.stack = [] :: rest) :
    step test m st = { st with stack := rest } := by
  simp [step, hstk]

lemma step_eq_pass {test : List α → Bool} {m : Nat} {st : St α} {group : List α}
    {rest : List (List α)} (hstk : st.stack = group :: rest) (hne : group ≠ [])
    (hp : run_verdict test st.cache group = true) :
    step test m st =
      ⟨rest, upd_cache test st.cache group, mark_known_good st.known_good group,
        st.bad, upd_calls st.cache st.calls group, st.pops ++ [(group, true)]⟩ := by
  have hemp : group.isEmpty = false := by
    cases group with
    | nil => exact absurd rfl hne
    | cons a l => rfl
  simp [step, hstk, hemp, hp]

lemma step_eq_excl {test : List α → Bool} {m : Nat} {st : St α} {group : List α}
    {rest : List (List α)} (hstk : st.stack = group :: rest) (hne : group ≠ [])
    (hp : run_verdict test st.cache group = false) (hsm : group.length ≤ m) :
    step test m st =
      ⟨rest,
        (excl_scan test st.known_good [] group (upd_cache test st.cache group)
          (upd_calls st.cache st.calls group) []).1,
        st.known_good,
        st.bad ++ (if (step_excl_ident test st group).isEmpty then group
          else step_excl_ident test st group),
        (excl_scan test st.known_good [] group (upd_cache test st.cache group)
          (upd_calls st.cache st.calls group) []).2.1,
        st.pops ++ [(group, false)]⟩ := by
  have hemp : group.isEmpty = false := by
    cases group with
    | nil => exact absurd rfl hne
    | cons a l => rfl
  simp [step, hstk, hemp, hp, hsm, step_excl_ident]

lemma step_eq_split {test : List α → Bool} {m : Nat} {st : St α} {group : List α}
    {rest : List (List α)} (hstk : st.stack = group :: rest) (hne : group ≠ [])
    (hp : run_verdict test st.cache group = false) (hsm : ¬group.length ≤ m) :
    step test m st =
      ⟨group.drop (group.length / 2) :: group.take (group.length / 2) :: rest,
        upd_cache test st.cache group, st.known_good, st.bad,
        upd_calls st.cache st.calls group, st.pops ++ [(group, false)]⟩ := by
  have hemp : group.isEmpty = false := by
    cases group with
    | nil => exact absurd rfl hne
    | cons a l => rfl
  simp [step, hstk, hemp, hp, hsm]

lemma mem_mark_known_good :
    ∀ (g kg : List α) (x : α), x ∈ mark_known_good kg g → x ∈ kg ∨ x ∈ g := by
  intro g
  induction g with
  | nil =>
    intro kg x h
    exact Or.inl (by simpa [mark_known_good] using h)
  | cons n g' ih =>
    intro kg x h
    have h' : x ∈ mark_known_good (if n ∈ kg then kg else kg ++ [n]) g' := by
      simpa [mark_known_good] using h
    rcases ih _ _ h' with h1 | h1
    · by_cases hn : n ∈ kg
      · rw [if_pos hn] at h1
        exact Or.inl h1
      · rw [if_neg hn] at h1
        rcases List.mem_append.mp h1 with h2 | h2
        · exact Or.inl h2
        · have hx : x = n := List.mem_singleton.mp h2
          exact Or.inr (hx ▸ List.mem_cons_self n g')
    · exact Or.inr (List.mem_cons_of_mem _ h1)

lemma step_branches (test : List α → Bool) (m : Nat) (st : St α)
    (h : st.stack ≠ []) :
    (∃ rest, st.stack = [] :: rest ∧ step test m st = { st with stack := rest }) ∨
    (∃ group rest, st.stack = group :: rest ∧ group ≠ [] ∧
      run_verdict test st.cache group = true ∧
      step test m st =
        ⟨rest, upd_cache test st.cache group, mark_known_good st.known_good group,
          st.bad, upd_calls st.cache st.calls group, st.pops ++ [(group, true)]⟩) ∨
    (∃ group rest, st.stack = group :: rest ∧ group ≠ [] ∧
      run_verdict test st.cache group = false ∧ group.length ≤ m ∧
      step test m st =
        ⟨rest,
          (excl_scan test st.known_good [] group (upd_cache test st.cache group)
            (upd_calls st.cache st.calls group) []).1,
          st.known_good,
          st.bad ++ (if (step_excl_ident test st group).isEmpty then group
            else step_excl_ident test st group),
          (excl_scan test st.known_good [] group (upd_cache test st.cache group)
            (upd_calls st.cache st.calls group) []).2.1,
          st.pops ++ [(group, false)]⟩) ∨
    (∃ group rest, st.stack = group :: rest ∧ group ≠ [] ∧
      run_verdict test st.cache group = false ∧ ¬group.length ≤ m ∧
      step test m st =
        ⟨group.drop (group.length / 2) :: group.take (group.length / 2) :: rest,
          upd_cache test st.cache group, st.known_good, st.bad,
          upd_calls st.cache st.calls group, st.pops ++ [(group, false)]⟩) := by
  cases hstk : st.stack with
  | nil => exact absurd hstk h
  | cons group rest =>
    by_cases hne : group = []
    · subst hne
      exact Or.inl ⟨rest, rfl, step_eq_empty hstk⟩
    · cases hp : run_verdict test st.cache group with
      | true =>
        exact Or.inr (Or.inl ⟨group, rest, rfl, hne, hp, step_eq_pass hstk hne hp⟩)
      | false =>
        by_cases hsm : group.length ≤ m
        · exact Or.inr (Or.inr (Or.inl
            ⟨group, rest, rfl, hne, hp, hsm, step_eq_excl hstk hne hp hsm⟩))
        · exact Or.inr (Or.inr (Or.inr
            ⟨group, rest, rfl, hne, hp, hsm, step_eq_split hstk hne hp hsm⟩))

lemma step_stack_nil_fix {test : List α → Bool} {m : Nat} {st : St α}
    (h : st.stack = []) : step test m st = st := by
  simp [step, h]

lemma step_pres_subset (test : List α → Bool) (m : Nat) (nodes : List α)
    (st : St α) (h : st.stack ≠ [])
    (h1 : ∀ g ∈ st.stack, ∀ x ∈ g, x ∈ nodes)
    (h2 : ∀ x ∈ st.bad, x ∈ nodes) :
    (∀ g ∈ (step test m st).stack, ∀ x ∈ g, x ∈ nodes) ∧
      ∀ x ∈ (step test m st).bad, x ∈ nodes := by
  rcases step_branches test m st h with
    ⟨rest, hstk, heq⟩ | ⟨group, rest, hstk, hne, hp, heq⟩ |
    ⟨group, rest, hstk, hne, hp, hsm, heq⟩ | ⟨group, rest, hstk, hne, hp, hsm, heq⟩
  · rw [heq]
    exact ⟨fun g hg => h1 g (hstk ▸ List.mem_cons_of_mem _ hg), h2⟩
  · rw [heq]
    exact ⟨fun g hg => h1 g (hstk ▸ List.mem_cons_of_mem _ hg), h2⟩
  · rw [heq]
    have hgrp : ∀ x ∈ group, x ∈ nodes := h1 group (hstk ▸ List.mem_cons_self _ _)
    refine ⟨fun g hg => h1 g (hstk ▸ List.mem_cons_of_mem _ hg), ?_⟩
    intro x hx
    rcases List.mem_append.mp hx with hx1 | hx1
    · exact h2 x hx1
    · by_cases hid : (step_excl_ident test st group).isEmpty
      · rw [if_pos hid] at hx1
        exact hgrp x hx1
      · rw [if_neg hid] at hx1
        unfold step_excl_ident at hx1
        rcases excl_scan_ident_sub test st.known_good group [] _ _ _ _ hx1 with h' | h'
        · exact absurd h' (List.not_mem_nil x)
        · exact hgrp x h'
  · rw [heq]
    have hgrp : ∀ x ∈ group, x ∈ nodes := h1 group (hstk ▸ List.mem_cons_self _ _)
    refine ⟨?_, h2⟩
    intro g hg
    rcases List.mem_cons.mp hg with rfl | hg'
    · exact fun x hx => hgrp x (List.drop_subset _ _ hx)
    · rcases List.mem_cons.mp hg' with rfl | hg''
      · exact fun x hx => hgrp x (List.take_subset _ _ hx)
      · exact h1 g (hstk ▸ List.mem_cons_of_mem _ hg'')

lemma step_pres_faithful {test : List α → Bool}
    (hperm : ∀ g₁ g₂ : List α, g₁.Perm g₂ → test g₁ = test g₂) (m : Nat)
    (st : St α) (hf : cacheFaithful test st.cache) :
    cacheFaithful test (step test m st).cache := by
  by_cases h : st.stack = []
  · rw [step_stack_nil_fix h]
    exact hf
  · rcases step_branches test m st h with
      ⟨rest, hstk, heq⟩ | ⟨group, rest, hstk, hne, hp, heq⟩ |
      ⟨group, rest, hstk, hne, hp, hsm, heq⟩ | ⟨group, rest, hstk, hne, hp, hsm, heq⟩
    · rw [heq]
      exact hf
    · rw [heq]
      exact upd_cache_faithful hperm hf group
    · rw [heq]
      exact excl_scan_cache_faithful hperm st.known_good group [] _ _ _
        (upd_cache_faithful hperm hf group)
    · rw [heq]
      exact upd_cache_faithful hperm hf group

lemma step_pres_callsInv (test : List α → Bool) (m : Nat) (st : St α)
    (h : callsInv st.cache st.calls) :
    callsInv (step test m st).cache (step test m st).calls := by
  by_cases h0 : st.stack = []
  · rw [step_stack_nil_fix h0]
    exact h
  · rcases step_branches test m st h0 with
      ⟨rest, hstk, heq⟩ | ⟨group, rest, hstk, hne, hp, heq⟩ |
      ⟨group, rest, hstk, hne, hp, hsm, heq⟩ | ⟨group, rest, hstk, hne, hp, hsm, heq⟩
    · rw [heq]
      exact h
    · rw [heq]
      exact upd_callsInv h
    · rw [heq]
      exact excl_scan_callsInv test st.known_good group [] _ _ _ (upd_callsInv h)
    · rw [heq]
      exact upd_callsInv h

lemma step_pres_kg_prov (test : List α → Bool) (m : Nat) (good0 : List α)
    (st : St α)
    (h : ∀ x ∈ st.known_good, x ∈ good0 ∨ ∃ p ∈ st.pops, p.2 = true ∧ x ∈ p.1) :
    ∀ x ∈ (step test m st).known_good,
      x ∈ good0 ∨ ∃ p ∈ (step test m st).pops, p.2 = true ∧ x ∈ p.1 := by
  by_cases h0 : st.stack = []
  · rw [step_stack_nil_fix h0]
    exact h
  · rcases step_branches test m st h0 with
      ⟨rest, hstk, heq⟩ | ⟨group, rest, hstk, hne, hp, heq⟩ |
      ⟨group, rest, hstk, hne, hp, hsm, heq⟩ | ⟨group, rest, hstk, hne, hp, hsm, heq⟩
    · rw [heq]
      exact h
    · rw [heq]
      intro x hx
      rcases mem_mark_known_good group st.known_good x hx with hx1 | hx1
      · rcases h x hx1 with h' | ⟨p, hp1, hp2⟩
        · exact Or.inl h'
        · exact Or.inr ⟨p, List.mem_append_left _ hp1, hp2⟩
      · exact Or.inr ⟨(group, true), List.mem_append_right _ (List.mem_singleton.mpr rfl),
          rfl, hx1⟩
    · rw [heq]
      intro x hx
      rcases h x hx with h' | ⟨p, hp1, hp2⟩
      · exact Or.inl h'
      · exact Or.inr ⟨p, List.mem_append_left _ hp1, hp2⟩
    · rw [heq]
      intro x hx
      rcases h x hx with h' | ⟨p, hp1, hp2⟩
      · exact Or.inl h'
      · exact Or.inr ⟨p, List.mem_append_left _ hp1, hp2⟩

lemma step_pres_tracks (B : List α) (b : α) (hb : b ∈ B) (m : Nat) (st : St α)
    (hf : cacheFaithful (oracleDisj B) st.cache)
    (h : b ∈ st.bad ∨ ∃ g ∈ st.stack, b ∈ g) :
    b ∈ (step (oracleDisj B) m st).bad ∨
      ∃ g ∈ (step (oracleDisj B) m st).stack, b ∈ g := by
  by_cases h0 : st.stack = []
  · rw [step_stack_nil_fix h0]
    exact h
  · rcases step_branches (oracleDisj B) m st h0 with
      ⟨rest, hstk, heq⟩ | ⟨group, rest, hstk, hne, hp, heq⟩ |
      ⟨group, rest, hstk, hne, hp, hsm, heq⟩ | ⟨group, rest, hstk, hne, hp, hsm, heq⟩
    · rw [heq]
      rcases h with h | ⟨g, hg, hbg⟩
      · exact Or.inl h
      · rw [hstk] at hg
        rcases List.mem_cons.mp hg with rfl | hg'
        · exact absurd hbg (List.not_mem_nil b)
        · exact Or.inr ⟨g, hg', hbg⟩
    · rw [heq]
      have hfv : oracleDisj B group = true := by
        rw [← run_verdict_faithful (oracleDisj_perm B) hf group]
        exact hp
      rcases h with h | ⟨g, hg, hbg⟩
      · exact Or.inl h
      · rw [hstk] at hg
        rcases List.mem_cons.mp hg with rfl | hg'
        · exact absurd hb (oracleDisj_eq_true.mp hfv b hbg)
        · exact Or.inr ⟨g, hg', hbg⟩
    · rw [heq]
      rcases h with h | ⟨g, hg, hbg⟩
      · exact Or.inl (List.mem_append_left _ h)
      · rw [hstk] at hg
        rcases List.mem_cons.mp hg with rfl | hg'
        · -- the popped failing group contains b: the exclusion phase reports it
          left
          apply List.mem_append_right
          by_cases hid : (step_excl_ident (oracleDisj B) st g).isEmpty
          · rw [if_pos hid]
            exact hbg
          · rw [if_neg hid]
            have hIne : step_excl_ident (oracleDisj B) st g ≠ [] := by
              intro hI
              rw [hI] at hid
              exact hid rfl
            obtain ⟨s₀, hs₀⟩ := List.exists_mem_of_ne_nil _ hIne
            have hs₀' := hs₀
            unfold step_excl_ident at hs₀'
            rcases excl_scan_ident_oracle B st.known_good g [] _ _ _
                (upd_cache_faithful (oracleDisj_perm B) hf g) s₀ hs₀' with h' | ⟨h1, h2⟩
            · exact absurd h' (List.not_mem_nil s₀)
            · have hbs : b = s₀ := h2 b hb (by simpa using hbg)
              exact hbs ▸ hs₀
        · exact Or.inr ⟨g, hg', hbg⟩
    · rw [heq]
      rcases h with h | ⟨g, hg, hbg⟩
      · exact Or.inl h
      · rw [hstk] at hg
        rcases List.mem_cons.mp hg with rfl | hg'
        · have hbg' : b ∈ g.take (g.length / 2) ++ g.drop (g.length / 2) := by
            rw [List.take_append_drop]
            exact hbg
          rcases List.mem_append.mp hbg' with h' | h'
          · exact Or.inr ⟨g.take (g.length / 2), by simp, h'⟩
          · exact Or.inr ⟨g.drop (g.length / 2), by simp, h'⟩
        · exact Or.inr ⟨g, by simp [hg'], hbg⟩

lemma step_pres_exact1 (k : α) (st : St α)
    (hf : cacheFaithful (oracleDisj [k]) st.cache)
    (hbad : ∀ x ∈ st.bad, x = k) :
    ∀ x ∈ (step (oracleDisj [k]) 1 st).bad, x = k := by
  by_cases h0 : st.stack = []
  · rw [step_stack_nil_fix h0]
    exact hbad
  · rcases step_branches (oracleDisj [k]) 1 st h0 with
      ⟨rest, hstk, heq⟩ | ⟨group, rest, hstk, hne, hp, heq⟩ |
      ⟨group, rest, hstk, hne, hp, hsm, heq⟩ | ⟨group, rest, hstk, hne, hp, hsm, heq⟩
    · rw [heq]
      exact hbad
    · rw [heq]
      exact hbad
    · rw [heq]
      have hl1 : group.length = 1 := by
        have := List.length_pos.mpr hne
        omega
      obtain ⟨y, rfl⟩ := List.length_eq_one.mp hl1
      have hfv : oracleDisj [k] [y] = false := by
        rw [← run_verdict_faithful (oracleDisj_perm [k]) hf [y]]
        exact hp
      obtain ⟨x0, hx0, hx0k⟩ := oracleDisj_eq_false.mp hfv
      have hyk : y = k := by
        have h1 : x0 = y := List.mem_singleton.mp hx0
        have h2 : x0 = k := List.mem_singleton.mp hx0k
        rw [← h1, h2]
      intro x hx
      rcases List.mem_append.mp hx with hx1 | hx1
      · exact hbad x hx1
      · by_cases hid : (step_excl_ident (oracleDisj [k]) st [y]).isEmpty
        · rw [if_pos hid] at hx1
          rw [List.mem_singleton.mp hx1, hyk]
        · rw [if_neg hid] at hx1
          unfold step_excl_ident at hx1
          rcases excl_scan_ident_sub (oracleDisj [k]) st.known_good [y] [] _ _ _
              _ hx1 with h' | h'
          · exact absurd h' (List.not_mem_nil x)
          · rw [List.mem_singleton.mp h', hyk]
    · rw [heq]
      exact hbad

lemma step_pres_exact4 (k : α) (nodes : List α) (hnd : nodes.Nodup) (st : St α)
    (hf : cacheFaithful (oracleDisj [k]) st.cache)
    (hsub : ∀ g ∈ st.stack, g.Sublist nodes)
    (hlen : ∀ g ∈ st.stack, g.length = 8 ∨ g.length = 4)
    (hbad : ∀ x ∈ st.bad, x = k) :
    (∀ g ∈ (step (oracleDisj [k]) 4 st).stack, g.Sublist nodes) ∧
      (∀ g ∈ (step (oracleDisj [k]) 4 st).stack, g.length = 8 ∨ g.length = 4) ∧
      ∀ x ∈ (step (oracleDisj [k]) 4 st).bad, x = k := by
  by_cases h0 : st.stack = []
  · rw [step_stack_nil_fix h0]
    exact ⟨hsub, hlen, hbad⟩
  · rcases step_branches (oracleDisj [k]) 4 st h0 with
      ⟨rest, hstk, heq⟩ | ⟨group, rest, hstk, hne, hp, heq⟩ |
      ⟨group, rest, hstk, hne, hp, hsm, heq⟩ | ⟨group, rest, hstk, hne, hp, hsm, heq⟩
    · exfalso
      have := hlen [] (by rw [hstk]; exact List.mem_cons_self _ _)
      simp at this
    · rw [heq]
      exact ⟨fun g hg => hsub g (hstk ▸ List.mem_cons_of_mem _ hg),
        fun g hg => hlen g (hstk ▸ List.mem_cons_of_mem _ hg), hbad⟩
    · rw [heq]
      have hmem : group ∈ st.stack := hstk ▸ List.mem_cons_self _ _
      have hl4 : group.length = 4 := by
        rcases hlen group hmem with h8 | h4
        · omega
        · exact h4
      have hgs : group.Sublist nodes := hsub group hmem
      have hgnd : group.Nodup := hnd.sublist hgs
      have hfv : oracleDisj [k] group = false := by
        rw [← run_verdict_faithful (oracleDisj_perm [k]) hf group]
        exact hp
      obtain ⟨x0, hx0, hx0k⟩ := oracleDisj_eq_false.mp hfv
      have hk : k ∈ group := (List.mem_singleton.mp hx0k) ▸ hx0
      obtain ⟨d, r, hgd⟩ := List.append_of_mem hk
      have hgnd' := hgnd
      rw [hgd, List.nodup_append] at hgnd'
      obtain ⟨hd1, hd2, hdisj⟩ := hgnd'
      have hkd : k ∉ d := fun hc => hdisj hc (List.mem_cons_self _ _)
      have hkr : k ∉ r := (List.nodup_cons.mp hd2).1
      have hdr : d.length + r.length = 3 := by
        have := hl4
        rw [hgd] at this
        simp [List.length_append] at this
        omega
      have hkI : k ∈ step_excl_ident (oracleDisj [k]) st group := by
        unfold step_excl_ident
        rw [hgd]
        apply excl_scan_ident_complete (oracleDisj_perm [k]) st.known_good k r d []
        · exact upd_cache_faithful (oracleDisj_perm [k]) hf _
        · simp [List.length_append]
          omega
        · rw [oracleDisj_eq_true]
          intro x hx hxk
          have hxk' : x = k := List.mem_singleton.mp hxk
          subst hxk'
          rcases List.mem_append.mp (by simpa using hx) with h' | h'
          · exact hkd h'
          · exact hkr h'
      have hIne : ¬(step_excl_ident (oracleDisj [k]) st group).isEmpty := by
        intro hI
        rw [List.isEmpty_iff] at hI
        rw [hI] at hkI
        exact List.not_mem_nil k hkI
      refine ⟨fun g hg => hsub g (hstk ▸ List.mem_cons_of_mem _ hg),
        fun g hg => hlen g (hstk ▸ List.mem_cons_of_mem _ hg), ?_⟩
      intro x hx
      rcases List.mem_append.mp hx with hx1 | hx1
      · exact hbad x hx1
      · rw [if_neg hIne] at hx1
        have hx1' := hx1
        unfold step_excl_ident at hx1'
        rcases excl_scan_ident_oracle [k] st.known_good group [] _ _ _
            (upd_cache_faithful (oracleDisj_perm [k]) hf group) x hx1' with h' | ⟨h1, h2⟩
        · exact absurd h' (List.not_mem_nil x)
        · exact (h2 k (List.mem_singleton.mpr rfl) (by simpa using hk)).symm
    · rw [heq]
      have hmem : group ∈ st.stack := hstk ▸ List.mem_cons_self _ _
      have hl8 : group.length = 8 := by
        rcases hlen group hmem with h8 | h4
        · exact h8
        · omega
      have hgs : group.Sublist nodes := hsub group hmem
      refine ⟨?_, ?_, hbad⟩
      · intro g hg
        rcases List.mem_cons.mp hg with rfl | hg'
        · exact (List.drop_sublist _ _).trans hgs
        · rcases List.mem_cons.mp hg' with rfl | hg''
          · exact (List.take_sublist _ _).trans hgs
          · exact hsub g (hstk ▸ List.mem_cons_of_mem _ hg'')
      · intro g hg
        rcases List.mem_cons.mp hg with rfl | hg'
        · right
          simp [List.length_drop, hl8]
        · rcases List.mem_cons.mp hg' with rfl | hg''
          · right
            simp [List.length_take, hl8]
          · exact hlen g (hstk ▸ List.mem_cons_of_mem _ hg'')

end StepLemmas

section EasyClaims

variable {α : Type} [LinearOrder α] [DecidableEq α]

/-- C8: the two implementations of the core search, `bisect_nodes` in
`nccltest_diag_bisect.py` and `bisect_nodes` in
`nccltest_allreduce_perf_bisect.py`, are extensionally equal: for every node
list, deterministic oracle, `min_group` and initial known-good list (and any
fuel) they produce identical final states — in particular the same sequence
of oracle calls (`calls`) and the same result set (`bad`). -/
theorem C8_implementations_equal (nodes : List α) (test : List α → Bool)
    (min_group : Nat) (good_nodes : List α) (fuel : Nat) :
    Perf.bisect_nodes nodes test min_group good_nodes fuel =
      bisect_nodes nodes test min_group good_nodes fuel := by
  unfold Perf.bisect_nodes bisect_nodes init_state
  exact perf_loop_eq test min_group fuel _

/-- C6 counterexample: the cache key actually used is `tuple(sorted(group))`
with duplicates retained, not the deduplicated canonical form.  The groups
`[0,0,1]` and `[0,1]` have the same member set but different cache keys, so
they do not hit the same cache entry. -/
theorem C6_counterexample :
    sortedKey ([0, 0, 1] : List ℕ) ≠ sortedKey [0, 1] ∧
      ([0, 0, 1] : List ℕ).toFinset = [0, 1].toFinset := by
  constructor <;> decide

/-- C6 (amended): the cache key of a group is the sorted sequence of its
members with duplicates retained, so any two groups that are permutations of
each other (same members with the same multiplicities, in any order) have the
same cache key and hit the same cache entry. -/
theorem C6_amended_key_perm_invariant (g₁ g₂ : List α) (h : g₁.Perm g₂) :
    sortedKey g₁ = sortedKey g₂ := by
  have h1 : (sortedKey g₁).Sorted (· ≤ ·) := List.sorted_insertionSort _ g₁
  have h2 : (sortedKey g₂).Sorted (· ≤ ·) := List.sorted_insertionSort _ g₂
  exact List.eq_of_perm_of_sorted
    ((sortedKey_perm g₁).trans (h.trans (sortedKey_perm g₂).symm)) h1 h2

/-- Witness for C6: a concrete permuted pair shares its cache key. -/
theorem C6_witness :
    ([1, 0] : List ℕ).Perm [0, 1] ∧ sortedKey ([1, 0] : List ℕ) = sortedKey [0, 1] :=
  ⟨by decide, C6_amended_key_perm_invariant _ _ (by decide)⟩

/-- C1 counterexample: with nodes `[0..7]`, designated bad node `k = 7` and
`min_group = 2`, the run returns `{6, 7}`, not the singleton `{7}`: the
terminal pair `[6, 7]` is reached before any group has passed, so the
exclusion candidates (single nodes) cannot be padded and the conservative
fallback marks both members bad. -/
theorem C1_counterexample :
    ((bisect_nodes [0, 1, 2, 3, 4, 5, 6, 7] (oracleDisj [7]) 2 [] 20).map
        (fun st => st.bad)) = some [6, 7] ∧ (6 : ℕ) ≠ 7 :=
  ⟨rfl, by decide⟩

/-- C2 counterexample: with nodes `[0..7]`, designated bad nodes `{3, 7}` and
`min_group = 2`, the run returns `{3, 6, 7}`, not `{3, 7}`: node 6 is swept up
by the conservative fallback on the terminal pair `[6, 7]`. -/
theorem C2_counterexample :
    ((bisect_nodes [0, 1, 2, 3, 4, 5, 6, 7] (oracleDisj [3, 7]) 2 [] 20).map
        (fun st => st.bad)) = some [6, 7, 3] ∧ (6 : ℕ) ≠ 3 ∧ (6 : ℕ) ≠ 7 :=
  ⟨rfl, by decide, by decide⟩

/-- C4 counterexample: on the input `[0, 0]` (duplicate node identifiers)
with an always-failing oracle, the oracle is invoked on `[0, 0]` and then on
`[0]`.  Both groups have the same canonical form in the specification's sense
(sorted and deduplicated), so a canonical group is passed to the oracle
twice within one run. -/
theorem C4_counterexample :
    ((bisect_nodes [0, 0] (fun _ => false) 1 [] 10).map (fun st => st.calls)) =
        some [[0, 0], [0]] ∧
      specCanonical ([0, 0] : List ℕ) = specCanonical [0] ∧ ([0, 0] : List ℕ) ≠ [0] :=
  ⟨rfl, by decide, by decide⟩

/-- C7 counterexample: a missing hostfile is also surfaced as a hard failure
(`read_nodes` calls `sys.exit(1)` on `FileNotFoundError`), before any oracle
call and without the initial node list being empty — so an empty node list is
not the only condition surfaced as a hard failure. -/
theorem C7_counterexample :
    isHardFailure (main_model (α := ℕ) none (fun _ => true) 2 10) ∧
      (none : Option (List ℕ)) ≠ some [] :=
  ⟨Or.inl rfl, by decide⟩

/-- C7 (amended): an empty node list and a missing hostfile are exactly the
conditions surfaced as hard failures by the driver, and a hard failure
performs no oracle call. -/
theorem C7_amended_hard_failures (h : Option (List α)) (test : List α → Bool)
    (min_group fuel : Nat) :
    (isHardFailure (main_model h test min_group fuel) ↔ h = none ∨ h = some []) ∧
      (isHardFailure (main_model h test min_group fuel) →
        mainCalls (main_model h test min_group fuel) = []) := by
  cases h with
  | none => simp [main_model, isHardFailure, mainCalls]
  | some nodes =>
    by_cases hn : nodes = []
    · subst hn; simp [main_model, isHardFailure, mainCalls]
    · simp [main_model, hn, isHardFailure, mainCalls]

/-- Witness for C7 (amended): the empty node list is a hard failure. -/
theorem C7_amended_witness :
    isHardFailure (main_model (some ([] : List ℕ)) (fun _ => true) 2 5) :=
  (C7_amended_hard_failures _ _ _ _).1.mpr (Or.inr rfl)

/-- C3: if the oracle passes every group, `bisect_nodes` returns the empty
result set after exactly one oracle call, made on the full input list. -/
theorem C3_all_pass (nodes good_nodes : List α) (test : List α → Bool)
    (min_group fuel : Nat) (hne : nodes ≠ []) (hpass : ∀ g, test g = true)
    (hfuel : 1 ≤ fuel) :
    (bisect_nodes nodes test min_group good_nodes fuel).map
      (fun st => (st.bad, st.calls)) = some ([], [nodes]) := by
  obtain ⟨f, rfl⟩ : ∃ f, fuel = f + 1 := ⟨fuel - 1, by omega⟩
  have hstep : step test min_group (init_state nodes good_nodes) =
      ⟨[], [(sortedKey nodes, true)], mark_known_good good_nodes nodes, [],
        [nodes], [(nodes, true)]⟩ := by
    cases nodes with
    | nil => exact absurd rfl hne
    | cons a l =>
      simp [step, init_state, run_verdict, upd_cache, upd_calls, cache_find, hpass]
  unfold bisect_nodes
  rw [show loop test min_group (f + 1) (init_state nodes good_nodes) =
      loop test min_group f (step test min_group (init_state nodes good_nodes)) by
    simp [loop, init_state]]
  rw [hstep, loop_stack_nil _ _ _ _ rfl]
  rfl

/-- Witness for C3: a concrete all-pass run. -/
theorem C3_witness :
    (bisect_nodes [0, 1] (fun _ => true) 2 [] 5).map (fun st => (st.bad, st.calls)) =
      some ([], [[0, 1]]) :=
  C3_all_pass ([0, 1] : List ℕ) [] (fun _ => true) 2 5 (by decide) (fun _ => rfl)
    (by decide)

/-- C5: when the exclusion phase on a failing group identifies no single
culprit (`identified_bad` empty), every member of the group is added to the
result set; in particular a failing single-node group with an empty
known-good set is reported bad rather than dropped. -/
theorem C5_conservative_fallback (test : List α → Bool) (min_group : Nat)
    (st : St α) (group : List α) (rest : List (List α))
    (hstk : st.stack = group :: rest) (hne : group ≠ [])
    (hfail : run_verdict test st.cache group = false)
    (hsmall : group.length ≤ min_group) :
    (step_excl_ident test st group = [] →
      ∀ x ∈ group, x ∈ (step test min_group st).bad) ∧
      (st.known_good = [] → ∀ x, group = [x] → x ∈ (step test min_group st).bad) := by
  have hbad : (step test min_group st).bad =
      st.bad ++ (if (step_excl_ident test st group).isEmpty then group
        else step_excl_ident test st group) := by
    have hemp : group.isEmpty = false := by
      cases group with
      | nil => exact absurd rfl hne
      | cons a l => rfl
    simp [step, hstk, hemp, hfail, hsmall, step_excl_ident]
  constructor
  · intro hid x hx
    rw [hbad, hid]
    simp [hx]
  · intro hkg x hgx
    have hid : step_excl_ident test st group = [] := by
      subst hgx
      simp [step_excl_ident, hkg, excl_scan_single_empty_kg]
    rw [hbad, hid]
    subst hgx
    simp

/-- Witness for C5: a concrete failing singleton with empty known-good set is
reported bad. -/
theorem C5_witness :
    (0 : ℕ) ∈ (step (fun _ => false) 1 (⟨[[0]], [], [], [], [], []⟩ : St ℕ)).bad :=
  (C5_conservative_fallback (fun _ => false) 1 ⟨[[0]], [], [], [], [], []⟩ [0] []
    rfl (by decide) rfl (by decide)).2 rfl 0 rfl

end EasyClaims

section BisectHelpers

variable {α : Type} [LinearOrder α] [DecidableEq α]

lemma bisect_total (nodes good : List α) (test : List α → Bool) {m : Nat}
    (hm : 1 ≤ m) (fuel : Nat) (hfuel : 3 ^ nodes.length ≤ fuel) :
    ∃ st', bisect_nodes nodes test m good fuel = some st' := by
  have hmeas : measureSt (init_state nodes good) ≤ fuel := by
    simp [measureSt, init_state]
    omega
  have h := loop_isSome test hm fuel (init_state nodes good) hmeas
  exact Option.isSome_iff_exists.mp h

lemma bisect_bad_subset (nodes good : List α) (test : List α → Bool)
    (m fuel : Nat) (st' : St α)
    (h : bisect_nodes nodes test m good fuel = some st') :
    ∀ x ∈ st'.bad, x ∈ nodes := by
  have hinv := loop_invariant test m
    (P := fun st => (∀ g ∈ st.stack, ∀ x ∈ g, x ∈ nodes) ∧ ∀ x ∈ st.bad, x ∈ nodes)
    (fun st hne hP => step_pres_subset test m nodes st hne hP.1 hP.2)
    fuel (init_state nodes good) st' ?_ h
  · exact hinv.2
  · constructor
    · intro g hg
      have hg' : g = nodes := by simpa [init_state] using hg
      subst hg'
      exact fun x hx => hx
    · intro x hx
      simp [init_state] at hx

lemma bisect_callsInv (nodes good : List α) (test : List α → Bool)
    (m fuel : Nat) (st' : St α)
    (h : bisect_nodes nodes test m good fuel = some st') :
    callsInv st'.cache st'.calls := by
  apply loop_invariant test m (P := fun st => callsInv st.cache st.calls)
    (fun st _ hP => step_pres_callsInv test m st hP) fuel (init_state nodes good) st' ?_ h
  constructor
  · simp [init_state]
  · intro c hc
    simp [init_state] at hc

lemma bisect_kg_prov (nodes good : List α) (test : List α → Bool)
    (m fuel : Nat) (st' : St α)
    (h : bisect_nodes nodes test m good fuel = some st') :
    ∀ x ∈ st'.known_good, x ∈ good ∨ ∃ p ∈ st'.pops, p.2 = true ∧ x ∈ p.1 := by
  apply loop_invariant test m
    (P := fun st => ∀ x ∈ st.known_good,
      x ∈ good ∨ ∃ p ∈ st.pops, p.2 = true ∧ x ∈ p.1)
    (fun st _ hP => step_pres_kg_prov test m good st hP) fuel (init_state nodes good)
    st' ?_ h
  intro x hx
  exact Or.inl (by simpa [init_state] using hx)

lemma bisect_tracks (B : List α) (b : α) (hb : b ∈ B) (nodes good : List α)
    (m fuel : Nat) (st' : St α) (hbn : b ∈ nodes)
    (h : bisect_nodes nodes (oracleDisj B) m good fuel = some st') :
    b ∈ st'.bad := by
  have hinv := loop_invariant (oracleDisj B) m
    (P := fun st => cacheFaithful (oracleDisj B) st.cache ∧
      (b ∈ st.bad ∨ ∃ g ∈ st.stack, b ∈ g))
    (fun st hne hP => ⟨step_pres_faithful (oracleDisj_perm B) m st hP.1,
      step_pres_tracks B b hb m st hP.1 hP.2⟩)
    fuel (init_state nodes good) st' ?_ h
  · rcases hinv.2 with h1 | ⟨g, hg, hbg⟩
    · exact h1
    · have hnil := loop_some_stack_eq_nil (oracleDisj B) m fuel _ _ h
      rw [hnil] at hg
      exact absurd hg (List.not_mem_nil g)
  · constructor
    · intro kv hkv
      simp [init_state] at hkv
    · exact Or.inr ⟨nodes, by simp [init_state], hbn⟩

lemma bisect_exact1 (k : α) (nodes good : List α) (fuel : Nat) (st' : St α)
    (h : bisect_nodes nodes (oracleDisj [k]) 1 good fuel = some st') :
    ∀ x ∈ st'.bad, x = k := by
  have hinv := loop_invariant (oracleDisj [k]) 1
    (P := fun st => cacheFaithful (oracleDisj [k]) st.cache ∧ ∀ x ∈ st.bad, x = k)
    (fun st hne hP => ⟨step_pres_faithful (oracleDisj_perm [k]) 1 st hP.1,
      step_pres_exact1 k st hP.1 hP.2⟩)
    fuel (init_state nodes good) st' ?_ h
  · exact hinv.2
  · constructor
    · intro kv hkv
      simp [init_state] at hkv
    · intro x hx
      simp [init_state] at hx

lemma bisect_exact4 (k : α) (nodes good : List α) (hnd : nodes.Nodup)
    (hlen8 : nodes.length = 8) (fuel : Nat) (st' : St α)
    (h : bisect_nodes nodes (oracleDisj [k]) 4 good fuel = some st') :
    ∀ x ∈ st'.bad, x = k := by
  have hinv := loop_invariant (oracleDisj [k]) 4
    (P := fun st => cacheFaithful (oracleDisj [k]) st.cache ∧
      ((∀ g ∈ st.stack, g.Sublist nodes) ∧
        (∀ g ∈ st.stack, g.length = 8 ∨ g.length = 4) ∧ ∀ x ∈ st.bad, x = k))
    (fun st hne hP => ⟨step_pres_faithful (oracleDisj_perm [k]) 4 st hP.1,
      step_pres_exact4 k nodes hnd st hP.1 hP.2.1 hP.2.2.1 hP.2.2.2⟩)
    fuel (init_state nodes good) st' ?_ h
  · exact hinv.2.2.2
  · refine ⟨?_, ?_, ?_, ?_⟩
    · intro kv hkv
      simp [init_state] at hkv
    · intro g hg
      have hg' : g = nodes := by simpa [init_state] using hg
      rw [hg']
    · intro g hg
      have hg' : g = nodes := by simpa [init_state] using hg
      rw [hg']
      exact Or.inl hlen8
    · intro x hx
      simp [init_state] at hx

end BisectHelpers

section MainClaims

variable {α : Type} [LinearOrder α] [DecidableEq α]

/-- C1 (amended): for every list of 8 distinct nodes, in any order, with the
oracle failing exactly on groups containing the designated node `k`: for
`min_group` 1 or 4 the result set is exactly `{k}`; for `min_group` 2 the
result always contains `k` and only input nodes, but can strictly exceed
`{k}` (the conservative fallback may also report the partner of `k`'s
terminal pair, as the counterexample shows). -/
theorem C1_amended_single_fault (nodes : List α) (k : α) (min_group fuel : Nat)
    (hnd : nodes.Nodup) (hlen : nodes.length = 8) (hk : k ∈ nodes)
    (hm : min_group = 1 ∨ min_group = 2 ∨ min_group = 4)
    (hfuel : 3 ^ 8 ≤ fuel) :
    ∃ st', bisect_nodes nodes (oracleDisj [k]) min_group [] fuel = some st' ∧
      ((min_group = 1 ∨ min_group = 4) → ∀ x, x ∈ st'.bad ↔ x = k) ∧
      (min_group = 2 → k ∈ st'.bad ∧ ∀ x ∈ st'.bad, x ∈ nodes) := by
  have hm1 : 1 ≤ min_group := by rcases hm with rfl | rfl | rfl <;> omega
  obtain ⟨st', hst'⟩ := bisect_total nodes [] (oracleDisj [k]) hm1 fuel
    (by rw [hlen]; exact hfuel)
  refine ⟨st', hst', ?_, ?_⟩
  · rintro (rfl | rfl)
    · intro x
      constructor
      · exact fun hx => bisect_exact1 k nodes [] fuel st' hst' x hx
      · intro hxk
        rw [hxk]
        exact bisect_tracks [k] k (List.mem_singleton.mpr rfl) nodes [] 1 fuel st' hk hst'
    · intro x
      constructor
      · exact fun hx => bisect_exact4 k nodes [] hnd hlen fuel st' hst' x hx
      · intro hxk
        rw [hxk]
        exact bisect_tracks [k] k (List.mem_singleton.mpr rfl) nodes [] 4 fuel st' hk hst'
  · rintro rfl
    exact ⟨bisect_tracks [k] k (List.mem_singleton.mpr rfl) nodes [] 2 fuel st' hk hst',
      bisect_bad_subset nodes [] (oracleDisj [k]) 2 fuel st' hst'⟩

/-- Witness for C1 (amended): a concrete 8-node run with `min_group = 1`. -/
theorem C1_amended_witness :
    ∃ st', bisect_nodes [0, 1, 2, 3, 4, 5, 6, 7] (oracleDisj [0]) 1 [] 6561 =
        some st' ∧
      ((1 = 1 ∨ 1 = 4) → ∀ x, x ∈ st'.bad ↔ x = 0) ∧
      (1 = 2 → (0 : ℕ) ∈ st'.bad ∧ ∀ x ∈ st'.bad, x ∈ [0, 1, 2, 3, 4, 5, 6, 7]) :=
  C1_amended_single_fault [0, 1, 2, 3, 4, 5, 6, 7] 0 1 6561 (by decide) (by decide)
    (by decide) (Or.inl rfl) (by norm_num)

/-- C2 (amended): for every list of 8 distinct nodes containing the two
designated bad nodes, `bisect_nodes` with `min_group = 2` and the oracle
failing exactly on groups meeting `{n3, n7}` returns a superset of
`{n3, n7}` contained in the input list (the counterexample shows the
inclusion can be strict). -/
theorem C2_amended_two_faults (nodes : List α) (n3 n7 : α) (fuel : Nat)
    (hnd : nodes.Nodup) (hlen : nodes.length = 8) (h3 : n3 ∈ nodes)
    (h7 : n7 ∈ nodes) (hne : n3 ≠ n7) (hfuel : 3 ^ 8 ≤ fuel) :
    ∃ st', bisect_nodes nodes (oracleDisj [n3, n7]) 2 [] fuel = some st' ∧
      n3 ∈ st'.bad ∧ n7 ∈ st'.bad ∧ ∀ x ∈ st'.bad, x ∈ nodes := by
  obtain ⟨st', hst'⟩ := bisect_total nodes [] (oracleDisj [n3, n7]) (m := 2) (by omega) fuel
    (by rw [hlen]; exact hfuel)
  refine ⟨st', hst', ?_, ?_, ?_⟩
  · exact bisect_tracks [n3, n7] n3 (by simp) nodes [] 2 fuel st' h3 hst'
  · exact bisect_tracks [n3, n7] n7 (by simp) nodes [] 2 fuel st' h7 hst'
  · exact bisect_bad_subset nodes [] (oracleDisj [n3, n7]) 2 fuel st' hst'

/-- Witness for C2 (amended): the concrete 8-node run. -/
theorem C2_amended_witness :
    ∃ st', bisect_nodes [0, 1, 2, 3, 4, 5, 6, 7] (oracleDisj [3, 7]) 2 [] 6561 =
        some st' ∧
      (3 : ℕ) ∈ st'.bad ∧ (7 : ℕ) ∈ st'.bad ∧
        ∀ x ∈ st'.bad, x ∈ [0, 1, 2, 3, 4, 5, 6, 7] :=
  C2_amended_two_faults [0, 1, 2, 3, 4, 5, 6, 7] 3 7 6561 (by decide) (by decide)
    (by decide) (by decide) (by decide) (by norm_num)

/-- C4 (amended): within a single run, the oracle is invoked at most once per
sorted group key (`tuple(sorted(group))`, duplicates retained): the sorted
keys of the performed oracle calls are pairwise distinct, every later
evaluation of a group with the same sorted key being served by the cache. -/
theorem C4_amended_calls_distinct (nodes good : List α) (test : List α → Bool)
    (min_group fuel : Nat) (st' : St α)
    (h : bisect_nodes nodes test min_group good fuel = some st') :
    (st'.calls.map sortedKey).Nodup :=
  (bisect_callsInv nodes good test min_group fuel st' h).1

/-- Witness for C4 (amended): a concrete completed run. -/
theorem C4_amended_witness :
    ∃ st', bisect_nodes [5] (fun _ => true) 2 [] 1 = some st' ∧
      (st'.calls.map sortedKey).Nodup :=
  ⟨_, rfl, C4_amended_calls_distinct ([5] : List ℕ) [] (fun _ => true) 2 1 _ rfl⟩

/-- C9: every node identifier in the result set is a member of the original
input node list — known-good seeds and padding fillers are never reported
bad. -/
theorem C9_result_subset_input (nodes good : List α) (test : List α → Bool)
    (min_group fuel : Nat) (st' : St α)
    (h : bisect_nodes nodes test min_group good fuel = some st') :
    ∀ x ∈ st'.bad, x ∈ nodes :=
  bisect_bad_subset nodes good test min_group fuel st' h

/-- Witness for C9: a concrete failing run whose result is inside the input. -/
theorem C9_witness :
    ∃ st', bisect_nodes [0] (fun _ => false) 1 [] 2 = some st' ∧
      ∀ x ∈ st'.bad, x ∈ [0] :=
  ⟨_, rfl, C9_result_subset_input ([0] : List ℕ) [] (fun _ => false) 1 2 _ rfl⟩

/-- C10: the known-good set grows only from groups popped off the work stack
that passed: every final member either comes from the initial seed or belongs
to some popped group recorded with a passing verdict.  In particular a
passing exclusion-phase candidate contributes nothing. -/
theorem C10_known_good_provenance (nodes good : List α) (test : List α → Bool)
    (min_group fuel : Nat) (st' : St α)
    (h : bisect_nodes nodes test min_group good fuel = some st') :
    ∀ x ∈ st'.known_good, x ∈ good ∨ ∃ p ∈ st'.pops, p.2 = true ∧ x ∈ p.1 :=
  bisect_kg_prov nodes good test min_group fuel st' h

/-- Witness for C10: a run where node 1 fails, node 0 passes. -/
theorem C10_witness :
    ∃ st', bisect_nodes [0, 1] (oracleDisj [1]) 1 [] 10 = some st' ∧
      ∀ x ∈ st'.known_good, x ∈ ([] : List ℕ) ∨
        ∃ p ∈ st'.pops, p.2 = true ∧ x ∈ p.1 := by
  obtain ⟨st', hst'⟩ : ∃ st',
      bisect_nodes [0, 1] (oracleDisj [1]) 1 [] 10 = some st' :=
    Option.isSome_iff_exists.mp (by decide)
  exact ⟨st', hst', C10_known_good_provenance [0, 1] [] (oracleDisj [1]) 1 10 st' hst'⟩

end MainClaims
